import Mathlib

/-!
# Verification of the blackjack engine (`src/types.rs`, `src/main.rs`)

Shallow embedding of the blackjack card game engine.  Machine integers are
modelled by `Nat`/`Int` (no arithmetic here can overflow `u32`/`i32` on the
inputs the program produces).  The `f32` field `true_count` is modelled by an
exact value type `F32` that distinguishes finite values from the IEEE special
values produced by division by zero; finite quotients are represented exactly
as rationals (the claims under study never depend on rounding of a finite
quotient, only on the zero-divisor behaviour and on exact zero resets).
Rust panics (`expect`) are modelled by an explicit `Panic` outcome.
-/

namespace Blackjack

/-- Rust `types.rs` `enum Error`: the only variant is `InvalidCardVal(u32)`. -/
inductive Error where
  | InvalidCardVal (v : Nat)
deriving DecidableEq, Repr

/-- A Rust panic (process abort).  `Shoe::take_card` panics via
`.expect("Out of cards!")` when the shoe is empty. -/
inductive Panic where
  | outOfCards
deriving DecidableEq, Repr

/-- Rust `pub const TWENTY_ONE: u32 = 21` -/
def TWENTY_ONE : Nat := 21

/-- Rust `pub const DECK_SIZE: usize = 52` -/
def DECK_SIZE : Nat := 52

/-- Rust `types.rs` `enum Suit`. -/
inductive Suit where
  | Spades
  | Hearts
  | Diamonds
  | Clubs
deriving DecidableEq, Repr

/-- Rust `types.rs` `enum Value`. -/
inductive Value where
  | Two
  | Three
  | Four
  | Five
  | Six
  | Seven
  | Eight
  | Nine
  | Ten
  | Jack
  | Queen
  | King
  | Ace
deriving DecidableEq, Repr

/-- Rust `Value::ACE_HIGH_VAL` -/
def Value.ACE_HIGH_VAL : Nat := 11

/-- Rust `Value::ACE_LOW_VAL` -/
def Value.ACE_LOW_VAL : Nat := 1

/-- Rust `impl Value { fn value(&self) -> u32 }` -/
def Value.value : Value → Nat
  | .Two => 2
  | .Three => 3
  | .Four => 4
  | .Five => 5
  | .Six => 6
  | .Seven => 7
  | .Eight => 8
  | .Nine => 9
  | .Ten => 10
  | .Jack => 10
  | .Queen => 10
  | .King => 10
  | .Ace => 11

/-- Rust `impl TryFrom<u32> for Value`: `1` and `14` both map to `Ace`,
`2`..`13` map to `Two`..`King`, anything else is `InvalidCardVal`. -/
def Value.tryFrom (v : Nat) : Except Error Value :=
  match v with
  | 1 => .ok .Ace
  | 2 => .ok .Two
  | 3 => .ok .Three
  | 4 => .ok .Four
  | 5 => .ok .Five
  | 6 => .ok .Six
  | 7 => .ok .Seven
  | 8 => .ok .Eight
  | 9 => .ok .Nine
  | 10 => .ok .Ten
  | 11 => .ok .Jack
  | 12 => .ok .Queen
  | 13 => .ok .King
  | 14 => .ok .Ace
  | _ => .error (.InvalidCardVal v)

/-- Rust `types.rs` `struct Card { suit, value }` -/
structure Card where
  suit : Suit
  value : Value
deriving DecidableEq, Repr

/-- Rust `types.rs` `struct Hand { cards: Vec<Card> }` -/
structure Hand where
  cards : List Card
deriving DecidableEq, Repr

/-- Number of aces in the hand: the `aces` local of `Hand::calc_value`
(`cards.iter().filter(|c| c.value == Value::Ace).count()`). -/
def Hand.numAces (h : Hand) : Nat :=
  (h.cards.filter (fun c => c.value == Value.Ace)).length

/-- The `val_without_aces` local of `Hand::calc_value`: sum of the values of
all non-ace cards. -/
def Hand.baseValue (h : Hand) : Nat :=
  ((h.cards.filter (fun c => !(c.value == Value.Ace))).map (fun c => c.value.value)).sum

/-- The value assigned inside the loop of `Hand::calc_value` at iteration `n`:
`val_without_aces + (aces - n) * ACE_HIGH_VAL + n * ACE_LOW_VAL`. -/
def aceTotal (base a n : Nat) : Nat :=
  base + (a - n) * Value.ACE_HIGH_VAL + n * Value.ACE_LOW_VAL

/-- The `for n in 0..=aces` loop of `Hand::calc_value`, iterating over the
remaining loop indices; `val` is the value left from the previous iteration
(the loop's `val` variable), returned if the iteration space is exhausted. -/
def aceScan (base a : Nat) : List Nat → Nat → Nat
  | [], val => val
  | n :: rest, _ =>
    let val := aceTotal base a n
    if val ≤ TWENTY_ONE then val else aceScan base a rest val

/-- Rust `Hand::calc_value`. -/
def Hand.calc_value (h : Hand) : Nat :=
  aceScan h.baseValue h.numAces (List.range (h.numAces + 1)) h.baseValue

/-- Rust `Hand::from_card` -/
def Hand.from_card (c : Card) : Hand := ⟨[c]⟩

/-- Rust `Hand::add_card` (`Vec::push` appends at the end). -/
def Hand.add_card (h : Hand) (c : Card) : Hand := ⟨h.cards ++ [c]⟩

/-- Rust `Hand::is_blackjack`:
`num_aces == 1 && self.cards.len() == 2 && self.calc_value() == TWENTY_ONE`. -/
def Hand.is_blackjack (h : Hand) : Bool :=
  h.numAces == 1 && h.cards.length == 2 && h.calc_value == TWENTY_ONE

/-- Model of an `f32` as used for `Shoe::true_count`: a finite value (held
exactly as a rational) or one of the IEEE special values that
division by zero produces. -/
inductive F32 where
  | num (q : ℚ)
  | posInf
  | negInf
  | nan
deriving DecidableEq, Repr

/-- IEEE division `(n as f32) / (d as f32)` for an integer numerator and a
natural divisor, as performed by `Shoe::take_card`: a zero divisor gives
NaN (for a zero numerator) or a signed infinity; a nonzero divisor gives the
finite quotient (modelled exactly, see the module docstring). -/
def intDivF32 (n : ℤ) (d : ℕ) : F32 :=
  if d = 0 then
    if n = 0 then .nan
    else if 0 < n then .posInf
    else .negInf
  else .num ((n : ℚ) / (d : ℚ))

/-- Rust `types.rs` `struct Shoe { cards, running_count, true_count }` -/
structure Shoe where
  cards : List Card
  running_count : ℤ
  true_count : F32
deriving DecidableEq, Repr

/-- Rust `Shoe::take_card`: pops the card at the draw end (`Vec::pop`, the last
element), panicking when empty; updates `running_count` by the hi-lo bucket
of the card's value, then recomputes
`true_count = running_count as f32 / ((cards.len() / DECK_SIZE) as f32)`. -/
def Shoe.take_card (s : Shoe) : Except Panic (Card × Shoe) :=
  match s.cards.getLast? with
  | none => .error .outOfCards
  | some card =>
    let rest := s.cards.dropLast
    let card_val := card.value.value
    let count_change : ℤ := if card_val ≤ 6 then 1 else if 10 ≤ card_val then -1 else 0
    let rc := s.running_count + count_change
    let remaining_decks := rest.length / DECK_SIZE
    .ok (card, ⟨rest, rc, intDivF32 rc remaining_decks⟩)

/-- Rust `Shoe::num_cards` -/
def Shoe.num_cards (s : Shoe) : Nat := s.cards.length

/-- Rust `types.rs` `struct Deck { cards: Vec<Card> }` -/
structure Deck where
  cards : List Card
deriving DecidableEq, Repr

/-- Rust's `Iterator::collect::<Result<Vec<_>, Error>>()`: collect a list of
results, short-circuiting at the first error. -/
def collectExcept {α : Type} : List (Except Error α) → Except Error (List α)
  | [] => .ok []
  | x :: xs =>
    match x with
    | .error e => .error e
    | .ok v =>
      match collectExcept xs with
      | .error e => .error e
      | .ok vs => .ok (v :: vs)

/-- Rust `Deck::new`: converts `2..=14` through `Value::try_from`, then builds one
card per (suit, value) pair, suits outermost. -/
def Deck.new : Except Error Deck :=
  match collectExcept ((List.range' 2 13).map Value.tryFrom) with
  | .error e => .error e
  | .ok all_values =>
    let all_suites := [Suit.Spades, Suit.Hearts, Suit.Diamonds, Suit.Clubs]
    .ok ⟨(all_suites.map (fun suit => all_values.map (fun value => Card.mk suit value))).flatten⟩

/-- Rust `Shoe::new`: builds `num_decks` decks, short-circuiting on a deck error,
flattens their cards, and starts both counters at zero. -/
def Shoe.new (num_decks : Nat) : Except Error Shoe :=
  match collectExcept ((List.range num_decks).map (fun _ =>
      match Deck.new with
      | .ok d => .ok d.cards
      | .error e => .error e)) with
  | .error e => .error e
  | .ok deck_cards => .ok ⟨deck_cards.flatten, 0, .num 0⟩

/-- The card list of the (always successfully) built standard deck. -/
def deckCards : List Card :=
  match Deck.new with
  | .ok d => d.cards
  | .error _ => []

/-- Modelled from the spec: the body of `rand::seq::SliceRandom::shuffle`
(library code, not part of this repository), which the spec describes as
"a uniform random permutation (Fisher-Yates or equivalent)".  The entropy
source is abstracted as `rand : ℕ → ℕ` (the `k`-th random draw); each step
extracts the randomly chosen remaining card. -/
def shuffleGo {α : Type} (rand : ℕ → ℕ) : ℕ → List α → List α
  | _, [] => []
  | k, x :: xs =>
    let l := x :: xs
    let j := rand k % l.length
    let c := l.getD j x
    let rest := l.eraseIdx j
    c :: shuffleGo rand (k + 1) rest
termination_by _ l => l.length
decreasing_by
  simp only [List.length_eraseIdx]
  have hl : 0 < (x :: xs).length := by simp
  have hj : rand k % (x :: xs).length < (x :: xs).length := Nat.mod_lt _ hl
  simp only [hj, if_pos]
  omega

/-- Rust `Shoe::shuffle`: permutes the cards (via the library shuffle, modelled by
`shuffleGo` over an abstract entropy source) and resets both counters. -/
def Shoe.shuffle (s : Shoe) (rand : ℕ → ℕ) : Shoe :=
  ⟨shuffleGo rand 0 s.cards, 0, .num 0⟩

/-- Rust `main.rs` `dealer_turn`: while the dealer hand values below 17, draw one
card into it; propagates the `take_card` panic if the shoe empties. -/
def dealerTurn (hand : Hand) (shoe : Shoe) : Except Panic (Hand × Shoe) :=
  if 17 ≤ hand.calc_value then .ok (hand, shoe)
  else
    match h : shoe.take_card with
    | .error e => .error e
    | .ok (c, s2) => dealerTurn (hand.add_card c) s2
termination_by shoe.cards.length
decreasing_by
  unfold Shoe.take_card at h
  cases hl : shoe.cards.getLast? with
  | none => rw [hl] at h; exact absurd h (by simp)
  | some card =>
    rw [hl] at h
    simp only [Except.ok.injEq, Prod.mk.injEq] at h
    have hne : shoe.cards ≠ [] := by
      intro hnil
      rw [hnil] at hl
      simp at hl
    have hlen : 0 < shoe.cards.length := List.length_pos.mpr hne
    have : s2.cards = shoe.cards.dropLast := by rw [← h.2]
    rw [this, List.length_dropLast]
    omega

end Blackjack

namespace Blackjack

example : Hand.calc_value ⟨[]⟩ = 0 := by decide

example : Hand.calc_value ⟨[⟨.Spades, .Ace⟩, ⟨.Hearts, .Ace⟩]⟩ = 12 := by decide

example :
    Hand.calc_value ⟨[⟨.Spades, .Ace⟩, ⟨.Hearts, .Ace⟩, ⟨.Clubs, .King⟩, ⟨.Diamonds, .Five⟩]⟩
      = 17 := by decide

example : Hand.is_blackjack ⟨[⟨.Spades, .Ace⟩, ⟨.Diamonds, .King⟩]⟩ = true := by decide

example :
    Hand.is_blackjack ⟨[⟨.Spades, .Ace⟩, ⟨.Diamonds, .King⟩, ⟨.Clubs, .Jack⟩]⟩ = false := by
  decide

/-- The loop totals decrease as more aces are counted low. -/
lemma aceTotal_antitone (base a i m : Nat) (him : i ≤ m) (hma : m ≤ a) :
    aceTotal base a m ≤ aceTotal base a i := by
  unfold aceTotal Value.ACE_HIGH_VAL Value.ACE_LOW_VAL
  omega

/-- All aces low gives `base + a`. -/
lemma aceTotal_last (base a : Nat) : aceTotal base a a = base + a := by
  unfold aceTotal Value.ACE_HIGH_VAL Value.ACE_LOW_VAL
  omega

/-- Characterisation of the ace loop on the remaining iteration range
`[n, a]`: either it returns the total of the first index whose total fits
under 21 (every earlier index overshooting), or every remaining index
overshoots and it falls through with the all-aces-low total. -/
lemma aceScan_characterisation (base a : Nat) :
    ∀ (m n v : Nat), n + m = a + 1 → (m = 0 → v = base + a) →
      (∃ i, n ≤ i ∧ i ≤ a ∧ aceScan base a (List.range' n m) v = aceTotal base a i ∧
        aceTotal base a i ≤ TWENTY_ONE ∧
        ∀ j, n ≤ j → j < i → TWENTY_ONE < aceTotal base a j)
      ∨ ((∀ j, n ≤ j → j ≤ a → TWENTY_ONE < aceTotal base a j) ∧
         aceScan base a (List.range' n m) v = base + a) := by
  intro m
  induction m with
  | zero =>
    intro n v hn hv
    right
    constructor
    · intro j hj1 hj2
      omega
    · simp [aceScan, hv]
  | succ m ih =>
    intro n v hn _
    rw [List.range'_succ]
    by_cases hle : aceTotal base a n ≤ TWENTY_ONE
    · left
      refine ⟨n, le_refl n, by omega, ?_, hle, fun j hj1 hj2 => by omega⟩
      simp [aceScan, hle]
    · have hrec : aceScan base a (n :: List.range' (n + 1) m) v
          = aceScan base a (List.range' (n + 1) m) (aceTotal base a n) := by
        simp [aceScan, hle]
      have hv0 : m = 0 → aceTotal base a n = base + a := by
        intro hm
        have : n = a := by omega
        rw [this, aceTotal_last]
      rcases ih (n + 1) (aceTotal base a n) (by omega) hv0 with
        ⟨i, hi1, hi2, heq, hfit, hall⟩ | ⟨hall, heq⟩
      · left
        refine ⟨i, by omega, hi2, by rw [hrec, heq], hfit, ?_⟩
        intro j hj1 hj2
        by_cases hjn : j = n
        · rw [hjn]; omega
        · exact hall j (by omega) hj2
      · right
        refine ⟨?_, by rw [hrec, heq]⟩
        intro j hj1 hj2
        by_cases hjn : j = n
        · rw [hjn]; omega
        · exact hall j (by omega) hj2

/-- Rust `calc_value` characterised against the full iteration range `0..=aces`. -/
lemma calc_value_characterisation (h : Hand) :
    (∃ i, i ≤ h.numAces ∧ h.calc_value = aceTotal h.baseValue h.numAces i ∧
      aceTotal h.baseValue h.numAces i ≤ TWENTY_ONE ∧
      ∀ j, j < i → TWENTY_ONE < aceTotal h.baseValue h.numAces j)
    ∨ ((∀ j, j ≤ h.numAces → TWENTY_ONE < aceTotal h.baseValue h.numAces j) ∧
       h.calc_value = h.baseValue + h.numAces) := by
  have hrange : List.range (h.numAces + 1) = List.range' 0 (h.numAces + 1) :=
    List.range_eq_range' _
  have := aceScan_characterisation h.baseValue h.numAces (h.numAces + 1) 0 h.baseValue
    (by omega) (by omega)
  rw [← hrange] at this
  unfold Hand.calc_value
  rcases this with ⟨i, _, hi2, heq, hfit, hall⟩ | ⟨hall, heq⟩
  · exact Or.inl ⟨i, hi2, heq, hfit, fun j hj => hall j (Nat.zero_le j) hj⟩
  · exact Or.inr ⟨fun j hj => hall j (Nat.zero_le j) hj, heq⟩

/-- C1: `calc_value` counts aces separately, sums non-ace values, and returns
the maximum loop total (as many aces high as possible) that does not exceed
21; when every assignment overshoots, it returns the all-aces-low total
unclamped (strictly above 21).  Empty hand is 0, two aces are 12, and
{Ace, Ace, King, Five} is 17. -/
theorem calc_value_correct (h : Hand) :
    (∃ n, n ≤ h.numAces ∧ h.calc_value = aceTotal h.baseValue h.numAces n) ∧
    (∀ n, n ≤ h.numAces → aceTotal h.baseValue h.numAces n ≤ TWENTY_ONE →
      h.calc_value ≤ TWENTY_ONE ∧ aceTotal h.baseValue h.numAces n ≤ h.calc_value) ∧
    ((∀ n, n ≤ h.numAces → TWENTY_ONE < aceTotal h.baseValue h.numAces n) →
      h.calc_value = h.baseValue + h.numAces ∧ TWENTY_ONE < h.calc_value) ∧
    Hand.calc_value ⟨[]⟩ = 0 ∧
    Hand.calc_value ⟨[⟨.Spades, .Ace⟩, ⟨.Hearts, .Ace⟩]⟩ = 12 ∧
    Hand.calc_value
      ⟨[⟨.Spades, .Ace⟩, ⟨.Hearts, .Ace⟩, ⟨.Clubs, .King⟩, ⟨.Diamonds, .Five⟩]⟩ = 17 := by
  refine ⟨?_, ?_, ?_, by decide, by decide, by decide⟩
  · rcases calc_value_characterisation h with ⟨i, hi, heq, _, _⟩ | ⟨_, heq⟩
    · exact ⟨i, hi, heq⟩
    · exact ⟨h.numAces, le_refl _, by rw [heq, aceTotal_last]⟩
  · intro n hn hfit
    rcases calc_value_characterisation h with ⟨i, hi, heq, hfiti, hall⟩ | ⟨hall, _⟩
    · have hin : i ≤ n := by
        by_contra hcon
        have := hall n (by omega)
        omega
      exact ⟨by rw [heq]; exact hfiti, by rw [heq]; exact aceTotal_antitone _ _ i n hin hn⟩
    · have := hall n hn
      omega
  · intro hbust
    rcases calc_value_characterisation h with ⟨i, hi, _, hfiti, _⟩ | ⟨_, heq⟩
    · have := hbust i hi
      omega
    · have hlast := hbust h.numAces (le_refl _)
      rw [aceTotal_last] at hlast
      exact ⟨heq, by omega⟩

/-- C1 witness: at the two-ace hand, the total with one ace low (12) is a
lower bound for `calc_value`, by the maximality clause. -/
theorem calc_value_correct_witness :
    aceTotal (Hand.baseValue ⟨[⟨.Spades, .Ace⟩, ⟨.Hearts, .Ace⟩]⟩)
        (Hand.numAces ⟨[⟨.Spades, .Ace⟩, ⟨.Hearts, .Ace⟩]⟩) 1
      ≤ Hand.calc_value ⟨[⟨.Spades, .Ace⟩, ⟨.Hearts, .Ace⟩]⟩ :=
  ((calc_value_correct ⟨[⟨.Spades, .Ace⟩, ⟨.Hearts, .Ace⟩]⟩).2.1 1
    (by decide) (by decide)).2

/-- C2: `is_blackjack` holds exactly on two-card hands with exactly one ace
valuing 21; a three-card 21 such as {Ace, King, Jack} is not blackjack. -/
theorem is_blackjack_iff (h : Hand) :
    (h.is_blackjack = true ↔
      h.cards.length = 2 ∧ h.numAces = 1 ∧ h.calc_value = TWENTY_ONE) ∧
    Hand.calc_value ⟨[⟨.Spades, .Ace⟩, ⟨.Diamonds, .King⟩, ⟨.Clubs, .Jack⟩]⟩ = 21 ∧
    Hand.is_blackjack ⟨[⟨.Spades, .Ace⟩, ⟨.Diamonds, .King⟩, ⟨.Clubs, .Jack⟩]⟩ = false := by
  refine ⟨?_, by decide, by decide⟩
  unfold Hand.is_blackjack
  simp only [Bool.and_eq_true, beq_iff_eq]
  tauto

/-- C3 counterexample: `Shoe::new(0)` is not rejected — it returns `Ok` with
an empty card list and zeroed counters (the `Error` enum has no
`InvalidConfiguration` variant at all). -/
theorem shoe_new_zero_returns_ok :
    Shoe.new 0 = Except.ok ⟨[], 0, F32.num 0⟩ := rfl

/-- C3 (amended): `Shoe::new(0)` succeeds, producing a shoe with zero cards
and both counters zero, rather than an `InvalidConfiguration` error. -/
theorem shoe_new_zero_empty_shoe :
    ∃ s, Shoe.new 0 = Except.ok s ∧ s.cards = [] ∧ s.running_count = 0 ∧
      s.true_count = F32.num 0 :=
  ⟨⟨[], 0, F32.num 0⟩, rfl, rfl, rfl, rfl⟩

/-- C4 counterexample: drawing from an empty shoe does not produce a
`ShoeEmpty` error value — the code panics (`.expect("Out of cards!")`),
modelled by the `Panic` outcome. -/
theorem take_card_empty_panics :
    Shoe.take_card ⟨[], 0, F32.num 0⟩ = Except.error Panic.outOfCards := rfl

/-- Computation rule for `take_card` on a shoe whose card list ends in `c`. -/
lemma take_card_eq (s : Shoe) (init : List Card) (c : Card)
    (hcards : s.cards = init ++ [c]) :
    s.take_card = Except.ok (c,
      ⟨init,
       s.running_count +
         (if c.value.value ≤ 6 then 1 else if 10 ≤ c.value.value then -1 else 0),
       intDivF32
         (s.running_count +
           (if c.value.value ≤ 6 then 1 else if 10 ≤ c.value.value then -1 else 0))
         (init.length / DECK_SIZE)⟩) := by
  unfold Shoe.take_card
  rw [hcards, List.getLast?_concat, List.dropLast_concat]

/-- Inversion rule for a successful `take_card`. -/
lemma take_card_ok_inversion (s : Shoe) (c : Card) (s2 : Shoe)
    (h : s.take_card = Except.ok (c, s2)) :
    s.cards.getLast? = some c ∧
    s2.cards = s.cards.dropLast ∧
    s2.running_count = s.running_count +
      (if c.value.value ≤ 6 then 1 else if 10 ≤ c.value.value then -1 else 0) ∧
    s2.true_count = intDivF32 s2.running_count (s2.cards.length / DECK_SIZE) := by
  unfold Shoe.take_card at h
  cases hl : s.cards.getLast? with
  | none => rw [hl] at h; exact absurd h (by simp)
  | some card =>
    rw [hl] at h
    simp only [Except.ok.injEq, Prod.mk.injEq] at h
    obtain ⟨hc, hs2⟩ := h
    subst hc
    subst hs2
    exact ⟨rfl, rfl, rfl, rfl⟩

/-- C4 (amended): `take_card` on an empty shoe panics (an unchecked crash,
not a recoverable `ShoeEmpty` value); on a non-empty shoe it removes and
returns the card at the draw end (the last element of the sequence). -/
theorem take_card_contract (s : Shoe) :
    (s.cards = [] → s.take_card = Except.error Panic.outOfCards) ∧
    (∀ init c, s.cards = init ++ [c] →
      ∃ rc tc, s.take_card = Except.ok (c, ⟨init, rc, tc⟩)) := by
  constructor
  · intro hnil
    unfold Shoe.take_card
    rw [hnil]
    rfl
  · intro init c hcards
    exact ⟨_, _, take_card_eq s init c hcards⟩

/-- C4 witness: the panic branch of `take_card_contract` at the concrete
empty shoe. -/
theorem take_card_contract_witness :
    Shoe.take_card ⟨[], 0, F32.num 0⟩ = Except.error Panic.outOfCards :=
  (take_card_contract ⟨[], 0, F32.num 0⟩).1 rfl

/-- C5: a successful `take_card` adjusts `running_count` by exactly the hi-lo
bucket of the drawn card's numeric value: +1 for 2–6, unchanged for 7–9,
−1 for 10 and above (tens, faces, aces). -/
theorem take_card_counting (s : Shoe) (c : Card) (s2 : Shoe)
    (h : s.take_card = Except.ok (c, s2)) :
    (2 ≤ c.value.value ∧ c.value.value ≤ 6 →
      s2.running_count = s.running_count + 1) ∧
    (7 ≤ c.value.value ∧ c.value.value ≤ 9 →
      s2.running_count = s.running_count) ∧
    (10 ≤ c.value.value → s2.running_count = s.running_count - 1) := by
  obtain ⟨-, -, hrc, -⟩ := take_card_ok_inversion s c s2 h
  refine ⟨fun hb => ?_, fun hb => ?_, fun hb => ?_⟩
  · rw [hrc, if_pos (by omega)]
  · rw [hrc, if_neg (by omega), if_neg (by omega)]
    omega
  · rw [hrc, if_neg (by omega), if_pos (by omega)]
    omega

/-- C5 witness: drawing the two of spades from a one-card shoe increments the
running count. -/
theorem take_card_counting_witness :
    (⟨[], 1, F32.posInf⟩ : Shoe).running_count
      = (⟨[⟨.Spades, .Two⟩], 0, F32.num 0⟩ : Shoe).running_count + 1 :=
  (take_card_counting ⟨[⟨.Spades, .Two⟩], 0, F32.num 0⟩ ⟨.Spades, .Two⟩
    ⟨[], 1, F32.posInf⟩ rfl).1 ⟨by decide, by decide⟩

/-- C6 counterexample: drawing from a one-card shoe leaves 0 cards, the
true-count divisor `0 / 52 = 0` is not clamped, and the IEEE division yields
`+∞` — not the finite value `1` that a divisor-clamped-to-1 policy would
give. -/
theorem take_card_true_count_unguarded :
    Shoe.take_card ⟨[⟨.Spades, .Two⟩], 0, F32.num 0⟩
        = Except.ok (⟨.Spades, .Two⟩, ⟨[], 1, F32.posInf⟩) ∧
      F32.posInf ≠ F32.num 1 :=
  ⟨rfl, by decide⟩

/-- C6 (amended): after every successful `take_card`, `true_count` is the
IEEE float division of the new `running_count` by
`remaining_cards / 52` (integer floor), with no guard: when fewer than 52
cards remain the divisor is 0 and the result is NaN, `+∞` or `−∞` according
to the sign of `running_count`. -/
theorem take_card_true_count (s : Shoe) (c : Card) (s2 : Shoe)
    (h : s.take_card = Except.ok (c, s2)) :
    s2.true_count = intDivF32 s2.running_count (s2.cards.length / DECK_SIZE) ∧
    (s2.cards.length < 52 →
      s2.cards.length / DECK_SIZE = 0 ∧
      s2.true_count = (if s2.running_count = 0 then F32.nan
        else if 0 < s2.running_count then F32.posInf else F32.negInf)) := by
  obtain ⟨-, -, -, htc⟩ := take_card_ok_inversion s c s2 h
  refine ⟨htc, fun hlt => ?_⟩
  have hdiv : s2.cards.length / DECK_SIZE = 0 := by
    apply Nat.div_eq_of_lt
    unfold DECK_SIZE
    omega
  refine ⟨hdiv, ?_⟩
  rw [htc, hdiv]
  unfold intDivF32
  rw [if_pos rfl]

/-- C6 witness: the true-count recomputation clause at the concrete one-card
shoe (after the draw, 0 cards remain, divisor `0 / 52`). -/
theorem take_card_true_count_witness :
    (⟨[], 1, F32.posInf⟩ : Shoe).true_count
      = intDivF32 (⟨[], 1, F32.posInf⟩ : Shoe).running_count
          ((⟨[], 1, F32.posInf⟩ : Shoe).cards.length / DECK_SIZE) :=
  (take_card_true_count ⟨[⟨.Spades, .Two⟩], 0, F32.num 0⟩ ⟨.Spades, .Two⟩
    ⟨[], 1, F32.posInf⟩ rfl).1

/-- Extracting the element at a valid index and consing it onto the list with
that index erased permutes the list. -/
lemma getD_cons_eraseIdx_perm {α : Type} (l : List α) (j : Nat)
    (hj : j < l.length) (d : α) :
    List.Perm (l.getD j d :: l.eraseIdx j) l := by
  have hg : l.getD j d = l[j] := by
    simp [List.getD_eq_getElem?_getD, List.getElem?_eq_getElem hj]
  have he : l.eraseIdx j = l.take j ++ l.drop (j + 1) :=
    List.eraseIdx_eq_take_drop_succ ..
  rw [hg, he]
  have hl : l = l.take j ++ l[j] :: l.drop (j + 1) := by
    conv_lhs => rw [← List.take_append_drop j l]
    congr 1
    exact List.drop_eq_getElem_cons hj
  conv_rhs => rw [hl]
  exact List.perm_middle.symm

/-- The modelled library shuffle permutes its input, whatever the entropy. -/
lemma shuffleGo_perm {α : Type} (rand : ℕ → ℕ) :
    ∀ (n : ℕ) (k : ℕ) (l : List α), l.length ≤ n →
      List.Perm (shuffleGo rand k l) l := by
  intro n
  induction n with
  | zero =>
    intro k l hl
    have : l = [] := List.length_eq_zero.mp (by omega)
    subst this
    simp [shuffleGo]
  | succ n ih =>
    intro k l hl
    match l with
    | [] => simp [shuffleGo]
    | x :: xs =>
      rw [shuffleGo]
      have hpos : 0 < (x :: xs).length := by simp
      have hj : rand k % (x :: xs).length < (x :: xs).length := Nat.mod_lt _ hpos
      have hlen : ((x :: xs).eraseIdx (rand k % (x :: xs).length)).length ≤ n := by
        rw [List.length_eraseIdx]
        simp only [hj, if_pos]
        simp only [List.length_cons] at hl ⊢
        omega
      exact List.Perm.trans
        (List.Perm.cons _ (ih (k + 1) _ hlen))
        (getD_cons_eraseIdx_perm (x :: xs) _ hj x)

/-- C7: `Shoe::shuffle` permutes the card sequence — same multiset of cards,
in particular the same number of cards — and resets `running_count` and
`true_count` to zero, for every entropy source. -/
theorem shuffle_perm_and_resets (s : Shoe) (rand : ℕ → ℕ) :
    List.Perm (s.shuffle rand).cards s.cards ∧
    ((s.shuffle rand).cards : Multiset Card) = (s.cards : Multiset Card) ∧
    (s.shuffle rand).cards.length = s.cards.length ∧
    (s.shuffle rand).running_count = 0 ∧
    (s.shuffle rand).true_count = F32.num 0 := by
  have hperm : List.Perm (s.shuffle rand).cards s.cards :=
    shuffleGo_perm rand s.cards.length 0 s.cards (le_refl _)
  exact ⟨hperm, Multiset.coe_eq_coe.mpr hperm, hperm.length_eq, rfl, rfl⟩

/-- Any completed (non-panicking) dealer turn ends at 17 or more, never
shrinks the hand, and has drawn at least one card when it started below
17. -/
lemma dealerTurn_ok_strong :
    ∀ (n : ℕ) (hand : Hand) (shoe : Shoe), shoe.cards.length ≤ n →
      ∀ h2 s2, dealerTurn hand shoe = Except.ok (h2, s2) →
        17 ≤ h2.calc_value ∧ hand.cards.length ≤ h2.cards.length ∧
        (hand.calc_value < 17 → hand.cards.length < h2.cards.length) := by
  intro n
  induction n with
  | zero =>
    intro hand shoe hlen h2 s2 hres
    rw [dealerTurn] at hres
    by_cases h17 : 17 ≤ hand.calc_value
    · rw [if_pos h17] at hres
      simp only [Except.ok.injEq, Prod.mk.injEq] at hres
      obtain ⟨⟨hh, hs⟩⟩ := hres
      exact ⟨h17, le_refl _, fun hlt => absurd h17 (by omega)⟩
    · rw [if_neg h17] at hres
      split at hres
      · exact absurd hres (by simp)
      · rename_i c s3 heq
        obtain ⟨hlast, -, -, -⟩ := take_card_ok_inversion shoe c s3 heq
        have hnil : shoe.cards = [] := List.length_eq_zero.mp (by omega)
        rw [hnil] at hlast
        exact absurd hlast (by simp)
  | succ n ih =>
    intro hand shoe hlen h2 s2 hres
    rw [dealerTurn] at hres
    by_cases h17 : 17 ≤ hand.calc_value
    · rw [if_pos h17] at hres
      simp only [Except.ok.injEq, Prod.mk.injEq] at hres
      obtain ⟨⟨hh, hs⟩⟩ := hres
      exact ⟨h17, le_refl _, fun hlt => absurd h17 (by omega)⟩
    · rw [if_neg h17] at hres
      split at hres
      · exact absurd hres (by simp)
      · rename_i c s3 heq
        obtain ⟨-, hcards3, -, -⟩ := take_card_ok_inversion shoe c s3 heq
        have hlen3 : s3.cards.length ≤ n := by
          rw [hcards3, List.length_dropLast]
          omega
        obtain ⟨hge, hmono, -⟩ := ih (hand.add_card c) s3 hlen3 h2 s2 hres
        have hadd : (hand.add_card c).cards.length = hand.cards.length + 1 := by
          simp [Hand.add_card]
        refine ⟨hge, by omega, fun _ => by omega⟩

/-- C8: the dealer draws exactly while the hand values below 17 — a hand at
17 or above never draws (the turn returns the hand and shoe untouched), a
completed turn starting below 17 (such as at 16) has drawn at least one
card, and every completed dealer turn ends with the hand valuing 17 or
more. -/
theorem dealer_turn_policy (hand : Hand) (shoe : Shoe) :
    (17 ≤ hand.calc_value → dealerTurn hand shoe = Except.ok (hand, shoe)) ∧
    (∀ h2 s2, hand.calc_value < 17 → dealerTurn hand shoe = Except.ok (h2, s2) →
      hand.cards.length < h2.cards.length) ∧
    (∀ h2 s2, dealerTurn hand shoe = Except.ok (h2, s2) → 17 ≤ h2.calc_value) := by
  refine ⟨fun h17 => ?_, fun h2 s2 hlt hres => ?_, fun h2 s2 hres => ?_⟩
  · rw [dealerTurn, if_pos h17]
  · exact (dealerTurn_ok_strong shoe.cards.length hand shoe (le_refl _) h2 s2 hres).2.2 hlt
  · exact (dealerTurn_ok_strong shoe.cards.length hand shoe (le_refl _) h2 s2 hres).1

/-- C8 witness: a dealer hand of {Ten, Seven} (17) never draws, at the
concrete empty shoe. -/
theorem dealer_turn_policy_witness :
    dealerTurn ⟨[⟨.Spades, .Ten⟩, ⟨.Hearts, .Seven⟩]⟩ ⟨[], 0, F32.num 0⟩
      = Except.ok (⟨[⟨.Spades, .Ten⟩, ⟨.Hearts, .Seven⟩]⟩, ⟨[], 0, F32.num 0⟩) :=
  (dealer_turn_policy ⟨[⟨.Spades, .Ten⟩, ⟨.Hearts, .Seven⟩]⟩ ⟨[], 0, F32.num 0⟩).1
    (by decide)

/-- Collecting `n` copies of a successful result succeeds with `n` copies. -/
lemma collectExcept_replicate_ok {α : Type} (xs : α) :
    ∀ n, collectExcept (List.replicate n (Except.ok xs))
      = Except.ok (List.replicate n xs) := by
  intro n
  induction n with
  | zero => rfl
  | succ n ih =>
    rw [List.replicate_succ, List.replicate_succ]
    unfold collectExcept
    rw [ih]

/-- Flattening `n` copies of a list multiplies its length by `n`. -/
lemma flatten_replicate_length {α : Type} (xs : List α) :
    ∀ n, (List.replicate n xs).flatten.length = n * xs.length := by
  intro n
  induction n with
  | zero => simp
  | succ n ih =>
    rw [List.replicate_succ, List.flatten_cons, List.length_append, ih]
    ring

/-- The `n`-deck shoe is built from `n` flattened copies of the deck. -/
lemma shoe_new_eq (n : ℕ) :
    Shoe.new n = Except.ok ⟨(List.replicate n deckCards).flatten, 0, F32.num 0⟩ := by
  unfold Shoe.new
  have hmap : (List.range n).map (fun _ =>
      match Deck.new with
      | .ok d => Except.ok d.cards
      | .error e => Except.error e) = List.replicate n (Except.ok deckCards) := by
    simp only [List.map_const', List.length_range]
    rfl
  rw [hmap, collectExcept_replicate_ok]

/-- C9: building a deck yields exactly the 52 distinct (rank, suit)
combinations — one card of each of the 13 ranks in each of the 4 suits,
without duplicates — and the shoe constructor concatenates `deck_count`
such decks, so an `n`-deck shoe holds `n * 52` cards and a 6-deck shoe
holds 312. -/
theorem deck_and_shoe_sizes :
    (∃ d, Deck.new = Except.ok d ∧ d.cards.length = 52 ∧ d.cards.Nodup ∧
      ∀ (v : Value) (su : Suit), Card.mk su v ∈ d.cards) ∧
    (∀ n, ∃ s, Shoe.new n = Except.ok s ∧ s.cards.length = n * 52) ∧
    (∃ s6, Shoe.new 6 = Except.ok s6 ∧ s6.cards.length = 312) := by
  have hlen : ∀ n, ∃ s, Shoe.new n = Except.ok s ∧ s.cards.length = n * 52 := by
    intro n
    refine ⟨_, shoe_new_eq n, ?_⟩
    have h52 : deckCards.length = 52 := by decide
    simp only [flatten_replicate_length, h52]
  refine ⟨⟨⟨deckCards⟩, rfl, by decide, by decide, ?_⟩, hlen, ?_⟩
  · intro v su
    cases v <;> cases su <;> decide
  · obtain ⟨s6, h6, hl6⟩ := hlen 6
    exact ⟨s6, h6, by omega⟩

/-- C10: `Value::try_from` succeeds on 1 through 14, fails with
`InvalidCardVal(v)` exactly on 0 and on 15 upward, maps both 1 and 14 to
`Ace` (so it is not injective), and deck construction — which only converts
2 through 14 — never hits its error path. -/
theorem value_try_from_range (v : ℕ) :
    (1 ≤ v → v ≤ 14 → ∃ r, Value.tryFrom v = Except.ok r) ∧
    (v = 0 ∨ 15 ≤ v → Value.tryFrom v = Except.error (Error.InvalidCardVal v)) ∧
    Value.tryFrom 1 = Except.ok Value.Ace ∧
    Value.tryFrom 14 = Except.ok Value.Ace ∧
    (∃ d, Deck.new = Except.ok d) := by
  refine ⟨fun h1 h14 => ?_, fun h0 => ?_, rfl, rfl, ⟨⟨deckCards⟩, rfl⟩⟩
  · interval_cases v <;> exact ⟨_, rfl⟩
  · rcases h0 with h0 | h15
    · subst h0; rfl
    · obtain ⟨k, hk⟩ : ∃ k, v = k + 15 := ⟨v - 15, by omega⟩
      subst hk
      rfl

/-- C10 witness: 20 is rejected with `InvalidCardVal(20)`. -/
theorem value_try_from_range_witness :
    Value.tryFrom 20 = Except.error (Error.InvalidCardVal 20) :=
  (value_try_from_range 20).2.1 (Or.inr (by omega))

end Blackjack
